import Mathlib

/-!
Verification of the Text-Map-Painter grid editor (src/map_editor.py).

The development shallowly embeds the grid data model and the mutating
operations of `TextGridEditor`: the authoritative character grid, the
selection set, the bounded undo stack, brush stamping, fills, biome
application, the visible-range computation of the renderer, canvas-pool
eviction, and text-file load/save.  Rendering side effects (tkinter canvas
calls, debug printing) are not modelled; only their data content is.
-/

namespace MapEditor

/-- The authoritative grid (`self.grid` together with `self.rows`,
`self.cols`).  The numpy array of character codes is modelled as a total
function from coordinates to characters; `set` and `get` in the source are
plain element assignment and lookup. -/
structure Grid where
  rows : Nat
  cols : Nat
  cell : Nat → Nat → Char

/-- Write one cell (`self.grid[row, col] = ord(ch)`). -/
def gridSet (g : Grid) (r c : Nat) (ch : Char) : Grid :=
  { g with cell := fun r2 c2 => if r2 = r ∧ c2 = c then ch else g.cell r2 c2 }

/-- One undoable action: the ordered `(row, col, previousChar)` triples
accumulated in a local `undo_action` list. -/
abbrev ChangeSet := List (Nat × Nat × Char)

/-- Coordinates touched by a change set. -/
def csCoords (cs : ChangeSet) : List (Nat × Nat) :=
  cs.map (fun e => (e.1, e.2.1))

/-- Replaying a change set onto the grid: the body of the `undo` loop,
`for row, col, old_char in last_action: self.grid[row, col] = ord(old_char)`. -/
def applyCS (g : Grid) (cs : ChangeSet) : Grid :=
  cs.foldl (fun gg e => gridSet gg e.1 e.2.1 e.2.2) g

/-- The undo-stack capacity `self.max_undo = 50`. -/
def max_undo : Nat := 50

/-- Push a change set onto the undo stack: `self.undo_stack.append(undo_action)`
followed by `if len(self.undo_stack) > self.max_undo: self.undo_stack.pop(0)`.
The stack is a list with the most recent entry at the end. -/
def pushUndo (stack : List ChangeSet) (cs : ChangeSet) : List ChangeSet :=
  let s := stack ++ [cs]
  if s.length > max_undo then s.drop 1 else s

/-- The `undo` method: if the stack is empty it is a no-op; otherwise pop the
most recent change set (`self.undo_stack.pop()`) and write every recorded
previous character back into the grid. -/
def undo (g : Grid) (stack : List ChangeSet) : Grid × List ChangeSet :=
  match stack.getLast? with
  | none => (g, stack)
  | some last => (applyCS g last, stack.dropLast)

/-- One iteration of the `fill_selection` / `on_keypress` loop over
`self.selected_cells`: bounds-check the coordinate, and when the current
character differs from the fill character record `(row, col, old_char)` and
write the fill character. -/
def fillStep (ch : Char) (st : Grid × ChangeSet) (rc : Nat × Nat) : Grid × ChangeSet :=
  if rc.1 < st.1.rows ∧ rc.2 < st.1.cols then
    let old := st.1.cell rc.1 rc.2
    if old ≠ ch then (gridSet st.1 rc.1 rc.2 ch, st.2 ++ [(rc.1, rc.2, old)])
    else st
  else st

/-- The grid-and-diff part of `fill_selection(self, char)` (lines 1866-1879):
iterate the selection, skipping out-of-bounds members and cells already
holding `ch`, writing `ch` elsewhere while accumulating `undo_action`. -/
def fill_changes (g : Grid) (sel : List (Nat × Nat)) (ch : Char) : Grid × ChangeSet :=
  sel.foldl (fillStep ch) (g, [])

/-- Full `fill_selection`: perform the writes, then push the accumulated
`undo_action` onto the undo stack when it is non-empty (lines 1881-1885). -/
def fill_selection (g : Grid) (stack : List ChangeSet) (sel : List (Nat × Nat))
    (ch : Char) : Grid × List ChangeSet :=
  let gu := fill_changes g sel ch
  (gu.1, if gu.2 = [] then stack else pushUndo stack gu.2)

/-- The grid-and-diff part of the keypress fill in `on_keypress`
(lines 1346-1352): identical recording discipline to `fill_selection`. -/
def keypress_changes (g : Grid) (sel : List (Nat × Nat)) (ch : Char) : Grid × ChangeSet :=
  sel.foldl (fillStep ch) (g, [])

/-- Full keypress fill: grid writes plus the undo-stack push of
lines 1361-1366 of `on_keypress`. -/
def on_keypress (g : Grid) (stack : List ChangeSet) (sel : List (Nat × Nat))
    (ch : Char) : Grid × List ChangeSet :=
  let gu := keypress_changes g sel ch
  (gu.1, if gu.2 = [] then stack else pushUndo stack gu.2)

/-- Python's `min(list) if list else 0`. -/
def listMin (l : List Nat) : Nat :=
  match l with
  | [] => 0
  | x :: xs => xs.foldl min x

/-- Python's `max(list) if list else 0`. -/
def listMax (l : List Nat) : Nat :=
  match l with
  | [] => 0
  | x :: xs => xs.foldl max x

/-- One iteration of the biome-application loop of `generate_biome`
(lines 2060-2068): only cells that are members of the selection are touched;
when the biome character differs from the current one it is recorded and
written.  There is no explicit bounds check in this loop. -/
def biomeStep (sel : List (Nat × Nat)) (minRow minCol : Nat) (bm : Nat → Nat → Char)
    (st : Grid × ChangeSet) (rc : Nat × Nat) : Grid × ChangeSet :=
  if rc ∈ sel then
    let old := st.1.cell rc.1 rc.2
    let nc := bm (rc.1 - minRow) (rc.2 - minCol)
    if old ≠ nc then (gridSet st.1 rc.1 rc.2 nc, st.2 ++ [(rc.1, rc.2, old)])
    else st
  else st

/-- The coordinates scanned by `generate_biome`: the bounding box
`range(min_row, max_row + 1) × range(min_col, max_col + 1)` of the selection,
rows outermost. -/
def biomeCoords (minRow maxRow minCol maxCol : Nat) : List (Nat × Nat) :=
  ((List.range (maxRow + 1 - minRow)).map (· + minRow)).product
    ((List.range (maxCol + 1 - minCol)).map (· + minCol))

/-- The grid-and-diff part of `generate_biome` (lines 2059-2068).  The
synthesized `biome_map` block (shape mask, biome profile and randomness,
lines 1997-2056, a terrain-synthesis collaborator producing a
`height × width` character block) is abstracted as the parameter `bm`,
indexed exactly as `biome_map[i][j]` with `i = row - min_row`,
`j = col - min_col`. -/
def biome_changes (g : Grid) (sel : List (Nat × Nat)) (bm : Nat → Nat → Char) :
    Grid × ChangeSet :=
  let minRow := listMin (sel.map Prod.fst)
  let maxRow := listMax (sel.map Prod.fst)
  let minCol := listMin (sel.map Prod.snd)
  let maxCol := listMax (sel.map Prod.snd)
  (biomeCoords minRow maxRow minCol maxCol).foldl (biomeStep sel minRow minCol bm) (g, [])

/-- Full `generate_biome` grid effect: apply the biome block to the selected
cells and push the accumulated `undo_action` when non-empty
(lines 2073-2077). -/
def generate_biome (g : Grid) (stack : List ChangeSet) (sel : List (Nat × Nat))
    (bm : Nat → Nat → Char) : Grid × List ChangeSet :=
  let gu := biome_changes g sel bm
  (gu.1, if gu.2 = [] then stack else pushUndo stack gu.2)

/-- The set of cells a brush stamp gathers into `new_selections` in
`apply_brush` (lines 1021-1035): the N×N footprint anchored at `(row, col)`,
rows then columns, each target clipped to grid bounds, and — when
`select_spaces_only` is on — skipped unless the current character is the
space character. -/
def brush_new_selections (g : Grid) (spacesOnly : Bool) (N row col : Nat) :
    List (Nat × Nat) :=
  ((List.range N).product (List.range N)).filterMap (fun d =>
    let tr := row + d.1
    let tc := col + d.2
    if tr < g.rows ∧ tc < g.cols then
      if spacesOnly ∧ g.cell tr tc ≠ ' ' then none
      else some (tr, tc)
    else none)

/-- The selection effect of `apply_brush` (lines 1000-1052): if the anchor
cell is out of grid bounds the method returns without touching the
selection; otherwise `selected_cells.update(new_selections)`.  The Python
set union is modelled by appending the members not already present. -/
def apply_brush (g : Grid) (sel : List (Nat × Nat)) (spacesOnly : Bool)
    (N row col : Nat) : List (Nat × Nat) :=
  if row < g.rows ∧ col < g.cols then
    sel ++ (brush_new_selections g spacesOnly N row col).filter (fun rc => rc ∉ sel)
  else sel

/-- The selection effect of `toggle_space_selection` (lines 1607-1639): flip
the flag; when the new value is on and a selection exists, rebuild the
selection keeping only in-bounds members whose current character is the
space character. -/
def toggle_space_selection (g : Grid) (sel : List (Nat × Nat))
    (spacesOnly : Bool) : Bool × List (Nat × Nat) :=
  let so := !spacesOnly
  if so ∧ sel ≠ [] then
    (so, sel.filter (fun rc => rc.1 < g.rows ∧ rc.2 < g.cols ∧ g.cell rc.1 rc.2 = ' '))
  else (so, sel)

/-- The visible cell range computed by `_redraw_visible_cells`
(lines 544-555): pixel window `[x1, x1+w) × [y1, y1+h)`, start indices
floored and clamped below by 0, end indices floored, advanced by 1 and
clamped above by the grid dimensions; `visible_set` enumerates the
resulting half-open index rectangle. -/
def visibleCells (rows cols : Nat) (x1 y1 w h cw ch : Int) : List (Int × Int) :=
  let startCol := max 0 (Int.fdiv x1 cw)
  let startRow := max 0 (Int.fdiv y1 ch)
  let endCol := min (cols : Int) (Int.fdiv (x1 + w) cw + 1)
  let endRow := min (rows : Int) (Int.fdiv (y1 + h) ch + 1)
  ((List.range (endRow - startRow).toNat).map (fun i => startRow + Int.ofNat i)).product
    ((List.range (endCol - startCol).toNat).map (fun j => startCol + Int.ofNat j))

/-- The visible cell range computed by `_redraw_visible_cells_force_complete`
(lines 461-482): as `visibleCells` but with a safety margin of 2 instead of 1
on the end indices. -/
def visibleCellsForce (rows cols : Nat) (x1 y1 w h cw ch : Int) : List (Int × Int) :=
  let startCol := max 0 (Int.fdiv x1 cw)
  let startRow := max 0 (Int.fdiv y1 ch)
  let endCol := min (cols : Int) (Int.fdiv (x1 + w) cw + 2)
  let endRow := min (rows : Int) (Int.fdiv (y1 + h) ch + 2)
  ((List.range (endRow - startRow).toNat).map (fun i => startRow + Int.ofNat i)).product
    ((List.range (endCol - startCol).toNat).map (fun j => startCol + Int.ofNat j))

/-- The expanded retention bounds used by `safe_cleanup_canvas_objects`
(lines 1066-1075): the visible pixel window converted to cell indices and
widened by `buffer_cells = 50`, clamped to `[0, rows]` and `[0, cols]`.
Returned as `(startRow, endRow, startCol, endCol)`. -/
def cleanupBounds (rows cols : Nat) (x1 y1 w h cw ch : Int) :
    Int × Int × Int × Int :=
  (max 0 (Int.fdiv y1 ch - 50),
   min (rows : Int) (Int.fdiv (y1 + h) ch + 50),
   max 0 (Int.fdiv x1 cw - 50),
   min (cols : Int) (Int.fdiv (x1 + w) cw + 50))

/-- Whether a pool coordinate is retained by eviction: the negation of the
removal test `row < start or row > end or col < start or col > end` of
line 1082. -/
def insideCleanupBounds (rows cols : Nat) (x1 y1 w h cw ch : Int)
    (rc : Nat × Nat) : Prop :=
  let b := cleanupBounds rows cols x1 y1 w h cw ch
  b.1 ≤ (rc.1 : Int) ∧ (rc.1 : Int) ≤ b.2.1 ∧ b.2.2.1 ≤ (rc.2 : Int) ∧ (rc.2 : Int) ≤ b.2.2.2

instance (rows cols : Nat) (x1 y1 w h cw ch : Int) (rc : Nat × Nat) :
    Decidable (insideCleanupBounds rows cols x1 y1 w h cw ch rc) := by
  unfold insideCleanupBounds; infer_instance

/-- The pool effect of `safe_cleanup_canvas_objects` (lines 1057-1101): when
fewer than 1000 render handles exist the method returns immediately;
otherwise every `canvas_objects` entry whose coordinate fails the retention
test is destroyed and dropped from the pool.  The grid is passed through
untouched, as the source never writes `self.grid` here. -/
def safe_cleanup_canvas_objects {α : Type} (g : Grid)
    (pool : List ((Nat × Nat) × α)) (x1 y1 w h cw ch : Int) :
    Grid × List ((Nat × Nat) × α) :=
  if pool.length < 1000 then (g, pool)
  else
    (g, pool.filter (fun e =>
      decide (insideCleanupBounds g.rows g.cols x1 y1 w h cw ch e.1)))

/-- Python's `line.rstrip(chr(10))`: drop every trailing newline character. -/
def rstripNewline (l : List Char) : List Char :=
  (l.reverse.dropWhile (fun c => c = '\n')).reverse

/-- The grid built by `load_text_file` (lines 410-424) from the file's lines
(as returned by `readlines`, each line possibly carrying its trailing
newline): `rows` is the line count, `cols` the maximum stripped line length,
the array starts as all spaces and each line's characters are copied in. -/
def load_text_file (lines : List (List Char)) : Grid :=
  { rows := lines.length
    cols := (lines.map (fun l => (rstripNewline l).length)).foldl max 0
    cell := fun r c => (rstripNewline (lines.getD r [])).getD c ' ' }

/-- The lines written by `save_to_file` (lines 492-503): one line per grid
row, the row's characters joined with no separator. -/
def save_to_file (g : Grid) : List (List Char) :=
  (List.range g.rows).map (fun r => (List.range g.cols).map (fun c => g.cell r c))

/-- Right-pad a line with spaces to width `n`. -/
def padRight (l : List Char) (n : Nat) : List Char :=
  l ++ List.replicate (n - l.length) ' '

/-- Characterization of the loop bodies that record undo information
(`fill_selection`, `on_keypress`, `generate_biome`): each iteration either
leaves the state alone or, for some character differing from the current one
at the visited coordinate, writes that character and appends
`(row, col, previousChar)` to the accumulated change set. -/
def StepOk (f : Grid × ChangeSet → Nat × Nat → Grid × ChangeSet) : Prop :=
  ∀ st rc, f st rc = st ∨
    ∃ ch, st.1.cell rc.1 rc.2 ≠ ch ∧
      f st rc = (gridSet st.1 rc.1 rc.2 ch, st.2 ++ [(rc.1, rc.2, st.1.cell rc.1 rc.2)])

/-- Invariant tying an in-progress mutating operation to the pre-operation
grid `g0`: recorded coordinates are distinct, every recorded previous
character is the pre-operation value at its coordinate, unrecorded cells
still hold their pre-operation value, and every recorded previous character
differs from the current value at its coordinate. -/
def RecInv (g0 : Grid) (st : Grid × ChangeSet) : Prop :=
  (csCoords st.2).Nodup ∧
  (∀ e ∈ st.2, e.2.2 = g0.cell e.1 e.2.1) ∧
  (∀ r c, (r, c) ∉ csCoords st.2 → st.1.cell r c = g0.cell r c) ∧
  (∀ e ∈ st.2, e.2.2 ≠ st.1.cell e.1 e.2.1)

/-- A tiny sample grid used to instantiate proved theorems at concrete
inputs: a 2×3 grid holding a wall character at `(0, 1)` and spaces
elsewhere. -/
def gTest : Grid :=
  { rows := 2, cols := 3, cell := fun r c => if r = 0 ∧ c = 1 then '#' else ' ' }

theorem gridSet_cell_same (g : Grid) (r c : Nat) (ch : Char) :
    (gridSet g r c ch).cell r c = ch := by
  simp [gridSet]

theorem gridSet_cell_other (g : Grid) (r c : Nat) (ch : Char) (r2 c2 : Nat)
    (h : ¬(r2 = r ∧ c2 = c)) : (gridSet g r c ch).cell r2 c2 = g.cell r2 c2 := by
  simp [gridSet, h]

theorem csCoords_append (a b : ChangeSet) :
    csCoords (a ++ b) = csCoords a ++ csCoords b := by
  simp [csCoords]

/-- One recording step preserves the invariant when the visited coordinate is
not yet recorded, and grows the recorded coordinates by at most that
coordinate. -/
theorem recInv_step {f : Grid × ChangeSet → Nat × Nat → Grid × ChangeSet}
    (hf : StepOk f) {g0 : Grid} {st : Grid × ChangeSet} {rc : Nat × Nat}
    (hrc : rc ∉ csCoords st.2) (h : RecInv g0 st) :
    RecInv g0 (f st rc) ∧ ∀ x ∈ csCoords (f st rc).2, x ∈ csCoords st.2 ∨ x = rc := by
  rcases hf st rc with heq | ⟨ch, hne, heq⟩
  · rw [heq]
    exact ⟨h, fun x hx => Or.inl hx⟩
  · rw [heq]
    obtain ⟨hnd, hprev, hframe, hcur⟩ := h
    have hrc2 : (rc.1, rc.2) ∉ csCoords st.2 := by
      simpa using hrc
    have hcoords : csCoords (st.2 ++ [(rc.1, rc.2, st.1.cell rc.1 rc.2)]) =
        csCoords st.2 ++ [(rc.1, rc.2)] := by
      simp [csCoords_append, csCoords]
    constructor
    · refine ⟨?_, ?_, ?_, ?_⟩
      · show (csCoords (st.2 ++ [(rc.1, rc.2, st.1.cell rc.1 rc.2)])).Nodup
        rw [hcoords]
        simp only [List.nodup_append, List.nodup_cons, List.not_mem_nil,
          not_false_iff, List.nodup_nil, true_and, and_true]
        refine ⟨hnd, ?_⟩
        intro x hx hx2
        simp only [List.mem_singleton] at hx2
        exact hrc2 (hx2 ▸ hx)
      · intro e he
        rcases List.mem_append.mp he with he1 | he1
        · exact hprev e he1
        · simp only [List.mem_singleton] at he1
          subst he1
          exact (hframe rc.1 rc.2 hrc2).symm ▸ rfl
      · intro r c hm
        rw [hcoords] at hm
        simp only [List.mem_append, List.mem_singleton, not_or] at hm
        obtain ⟨hm1, hm2⟩ := hm
        have : ¬(r = rc.1 ∧ c = rc.2) := by
          intro hand
          exact hm2 (by simp [hand.1, hand.2])
        show (gridSet st.1 rc.1 rc.2 ch).cell r c = g0.cell r c
        rw [gridSet_cell_other st.1 rc.1 rc.2 ch r c this]
        exact hframe r c hm1
      · intro e he
        rcases List.mem_append.mp he with he1 | he1
        · have hec : (e.1, e.2.1) ∈ csCoords st.2 :=
            List.mem_map.mpr ⟨e, he1, rfl⟩
          have : ¬(e.1 = rc.1 ∧ e.2.1 = rc.2) := by
            intro hand
            apply hrc2
            rw [← hand.1, ← hand.2]
            exact hec
          show e.2.2 ≠ (gridSet st.1 rc.1 rc.2 ch).cell e.1 e.2.1
          rw [gridSet_cell_other st.1 rc.1 rc.2 ch e.1 e.2.1 this]
          exact hcur e he1
        · simp only [List.mem_singleton] at he1
          subst he1
          show st.1.cell rc.1 rc.2 ≠ (gridSet st.1 rc.1 rc.2 ch).cell rc.1 rc.2
          rw [gridSet_cell_same]
          exact hne
    · intro x hx
      rw [hcoords] at hx
      rcases List.mem_append.mp hx with hx1 | hx1
      · exact Or.inl hx1
      · simp only [List.mem_singleton] at hx1
        subst hx1
        exact Or.inr (by simp)

/-- Folding a recording step over a duplicate-free coordinate list preserves
the invariant. -/
theorem recInv_foldl {f : Grid × ChangeSet → Nat × Nat → Grid × ChangeSet}
    (hf : StepOk f) :
    ∀ (items : List (Nat × Nat)) (g0 : Grid) (st : Grid × ChangeSet),
      items.Nodup → (∀ rc ∈ items, rc ∉ csCoords st.2) → RecInv g0 st →
      RecInv g0 (items.foldl f st) ∧
      (∀ x ∈ csCoords (items.foldl f st).2, x ∈ csCoords st.2 ∨ x ∈ items) := by
  intro items
  induction items with
  | nil =>
    intro g0 st _ _ h
    exact ⟨h, fun x hx => Or.inl hx⟩
  | cons a l ih =>
    intro g0 st hnd hdisj h
    have ha : a ∉ csCoords st.2 := hdisj a (by simp)
    obtain ⟨h1, hsub⟩ := recInv_step hf ha h
    have hnd2 := List.nodup_cons.mp hnd
    have hdisj2 : ∀ rc ∈ l, rc ∉ csCoords (f st a).2 := by
      intro rc hrc hmem
      rcases hsub rc hmem with hin | heq2
      · exact hdisj rc (by simp [hrc]) hin
      · subst heq2
        exact hnd2.1 hrc
    obtain ⟨h2, hsub2⟩ := ih g0 (f st a) hnd2.2 hdisj2 h1
    rw [List.foldl_cons]
    refine ⟨h2, ?_⟩
    intro x hx
    rcases hsub2 x hx with hx2 | hx2
    · rcases hsub x hx2 with h3 | h3
      · exact Or.inl h3
      · exact Or.inr (by simp [h3])
    · exact Or.inr (by simp [hx2])

theorem recInv_init (g : Grid) : RecInv g (g, []) := by
  refine ⟨by simp [csCoords], by simp, fun r c _ => rfl, by simp⟩

theorem applyCS_cell_of_not_mem :
    ∀ (cs : ChangeSet) (g : Grid) (r c : Nat), (r, c) ∉ csCoords cs →
      (applyCS g cs).cell r c = g.cell r c := by
  intro cs
  induction cs with
  | nil => intro g r c _; rfl
  | cons e l ih =>
    intro g r c h
    have h2 : (r, c) ∉ csCoords l := by
      intro hm
      exact h (by simp [csCoords, List.mem_map] at hm ⊢; tauto)
    have h3 : ¬(r = e.1 ∧ c = e.2.1) := by
      intro hand
      exact h (by simp [csCoords, hand.1, hand.2])
    show (applyCS (gridSet g e.1 e.2.1 e.2.2) l).cell r c = g.cell r c
    rw [ih (gridSet g e.1 e.2.1 e.2.2) r c h2]
    exact gridSet_cell_other g e.1 e.2.1 e.2.2 r c h3

theorem applyCS_cell_of_mem :
    ∀ (cs : ChangeSet) (g : Grid) (r c : Nat) (p : Char), (csCoords cs).Nodup →
      (r, c, p) ∈ cs → (applyCS g cs).cell r c = p := by
  intro cs
  induction cs with
  | nil => intro g r c p _ hm; exact absurd hm (List.not_mem_nil _)
  | cons e l ih =>
    intro g r c p hnd hm
    have hnd2 : (csCoords l).Nodup ∧ (e.1, e.2.1) ∉ csCoords l := by
      have : csCoords (e :: l) = (e.1, e.2.1) :: csCoords l := by simp [csCoords]
      rw [this] at hnd
      exact ⟨(List.nodup_cons.mp hnd).2, (List.nodup_cons.mp hnd).1⟩
    rcases List.mem_cons.mp hm with he | hml
    · subst he
      show (applyCS (gridSet g r c p) l).cell r c = p
      rw [applyCS_cell_of_not_mem l (gridSet g r c p) r c (by simpa using hnd2.2)]
      exact gridSet_cell_same g r c p
    · show (applyCS (gridSet g e.1 e.2.1 e.2.2) l).cell r c = p
      exact ih (gridSet g e.1 e.2.1 e.2.2) r c p hnd2.1 hml

/-- The invariant implies that replaying the recorded change set restores the
pre-operation grid at every cell. -/
theorem recInv_restore {g0 : Grid} {st : Grid × ChangeSet} (h : RecInv g0 st)
    (r c : Nat) : (applyCS st.1 st.2).cell r c = g0.cell r c := by
  obtain ⟨hnd, hprev, hframe, _⟩ := h
  by_cases hm : (r, c) ∈ csCoords st.2
  · obtain ⟨e, he, hec⟩ := List.mem_map.mp hm
    have he1 : e.1 = r := congrArg Prod.fst hec
    have he2 : e.2.1 = c := congrArg Prod.snd hec
    have hme : (r, c, e.2.2) ∈ st.2 := by
      have : e = (r, c, e.2.2) := by
        rw [← he1, ← he2]
      rw [← this]
      exact he
    rw [applyCS_cell_of_mem st.2 st.1 r c e.2.2 hnd hme]
    rw [hprev e he, he1, he2]
  · rw [applyCS_cell_of_not_mem st.2 st.1 r c hm]
    exact hframe r c hm

theorem fillStep_stepOk (ch : Char) : StepOk (fillStep ch) := by
  intro st rc
  by_cases h1 : rc.1 < st.1.rows ∧ rc.2 < st.1.cols
  · by_cases h2 : st.1.cell rc.1 rc.2 = ch
    · left
      simp [fillStep, h1, h2]
    · right
      exact ⟨ch, h2, by simp [fillStep, h1, h2]⟩
  · left
    simp [fillStep, h1]

theorem biomeStep_stepOk (sel : List (Nat × Nat)) (minRow minCol : Nat)
    (bm : Nat → Nat → Char) : StepOk (biomeStep sel minRow minCol bm) := by
  intro st rc
  by_cases h1 : rc ∈ sel
  · by_cases h2 : st.1.cell rc.1 rc.2 = bm (rc.1 - minRow) (rc.2 - minCol)
    · left
      simp [biomeStep, h1, h2]
    · right
      exact ⟨bm (rc.1 - minRow) (rc.2 - minCol), h2, by simp [biomeStep, h1, h2]⟩
  · left
    simp [biomeStep, h1]

theorem fill_changes_recInv (g : Grid) (sel : List (Nat × Nat)) (ch : Char)
    (h : sel.Nodup) : RecInv g (fill_changes g sel ch) :=
  (recInv_foldl (fillStep_stepOk ch) sel g (g, []) h (by simp [csCoords])
    (recInv_init g)).1

theorem biomeCoords_nodup (a b c d : Nat) : (biomeCoords a b c d).Nodup := by
  unfold biomeCoords
  apply List.Nodup.product
  · exact (List.nodup_range _).map (add_left_injective a)
  · exact (List.nodup_range _).map (add_left_injective c)

theorem biome_changes_recInv (g : Grid) (sel : List (Nat × Nat))
    (bm : Nat → Nat → Char) : RecInv g (biome_changes g sel bm) := by
  unfold biome_changes
  exact (recInv_foldl (biomeStep_stepOk sel _ _ bm) _ g (g, [])
    (biomeCoords_nodup _ _ _ _) (by simp [csCoords]) (recInv_init g)).1

theorem pushUndo_getLast (stack : List ChangeSet) (cs : ChangeSet) :
    (pushUndo stack cs).getLast? = some cs := by
  unfold pushUndo
  by_cases h : (stack ++ [cs]).length > max_undo
  · simp only [h, if_true]
    cases stack with
    | nil => simp [max_undo] at h
    | cons a t =>
      show ((a :: t ++ [cs]).drop 1).getLast? = some cs
      simp [List.getLast?_concat]
  · simp only [h, if_false]
    exact List.getLast?_concat _

theorem undo_pushUndo_fst (g : Grid) (stack : List ChangeSet) (cs : ChangeSet) :
    (undo g (pushUndo stack cs)).1 = applyCS g cs := by
  unfold undo
  rw [pushUndo_getLast]

/-- C1: for every change set recorded by a mutating operation (keypress fill,
`fill_selection`, biome generation), an immediate `undo` restores every
touched cell to its pre-operation value, and `undo` on an empty stack leaves
grid and stack unchanged. -/
theorem claim_C1_undo_restores :
    (∀ g : Grid, undo g [] = (g, [])) ∧
    (∀ (g : Grid) (stack : List ChangeSet) (sel : List (Nat × Nat)) (ch : Char),
      sel.Nodup → ∀ e ∈ (fill_changes g sel ch).2,
        ((undo (fill_selection g stack sel ch).1
          (fill_selection g stack sel ch).2).1).cell e.1 e.2.1 = g.cell e.1 e.2.1) ∧
    (∀ (g : Grid) (stack : List ChangeSet) (sel : List (Nat × Nat)) (ch : Char),
      sel.Nodup → ∀ e ∈ (keypress_changes g sel ch).2,
        ((undo (on_keypress g stack sel ch).1
          (on_keypress g stack sel ch).2).1).cell e.1 e.2.1 = g.cell e.1 e.2.1) ∧
    (∀ (g : Grid) (stack : List ChangeSet) (sel : List (Nat × Nat))
      (bm : Nat → Nat → Char), ∀ e ∈ (biome_changes g sel bm).2,
        ((undo (generate_biome g stack sel bm).1
          (generate_biome g stack sel bm).2).1).cell e.1 e.2.1 = g.cell e.1 e.2.1) := by
  refine ⟨fun g => rfl, ?_, ?_, ?_⟩
  · intro g stack sel ch hnd e he
    have hinv := fill_changes_recInv g sel ch hnd
    have hne : ¬(fill_changes g sel ch).2 = [] := by
      intro h0
      rw [h0] at he
      exact absurd he (List.not_mem_nil e)
    have h1 : fill_selection g stack sel ch =
        ((fill_changes g sel ch).1, pushUndo stack (fill_changes g sel ch).2) := by
      simp [fill_selection, hne]
    rw [h1, undo_pushUndo_fst]
    exact recInv_restore hinv e.1 e.2.1
  · intro g stack sel ch hnd e he
    have hinv := fill_changes_recInv g sel ch hnd
    have hne : ¬(keypress_changes g sel ch).2 = [] := by
      intro h0
      rw [h0] at he
      exact absurd he (List.not_mem_nil e)
    have h1 : on_keypress g stack sel ch =
        ((keypress_changes g sel ch).1, pushUndo stack (keypress_changes g sel ch).2) := by
      simp [on_keypress, hne]
    rw [h1, undo_pushUndo_fst]
    exact recInv_restore hinv e.1 e.2.1
  · intro g stack sel bm e he
    have hinv := biome_changes_recInv g sel bm
    have hne : ¬(biome_changes g sel bm).2 = [] := by
      intro h0
      rw [h0] at he
      exact absurd he (List.not_mem_nil e)
    have h1 : generate_biome g stack sel bm =
        ((biome_changes g sel bm).1, pushUndo stack (biome_changes g sel bm).2) := by
      simp [generate_biome, hne]
    rw [h1, undo_pushUndo_fst]
    exact recInv_restore hinv e.1 e.2.1

/-- Witness for C1: on the concrete grid `gTest`, filling the selection
`[(0,0), (0,1)]` with `x` and undoing restores the wall character at
`(0, 1)`. -/
theorem claim_C1_undo_restores_witness :
    ((undo (fill_selection gTest [] [(0, 0), (0, 1)] 'x').1
      (fill_selection gTest [] [(0, 0), (0, 1)] 'x').2).1).cell 0 1 = gTest.cell 0 1 :=
  claim_C1_undo_restores.2.1 gTest [] [(0, 0), (0, 1)] 'x' (by decide)
    (0, 1, '#') (by decide)

theorem mem_brush_new_selections (g : Grid) (so : Bool) (N row col tr tc : Nat) :
    (tr, tc) ∈ brush_new_selections g so N row col ↔
      (row ≤ tr ∧ tr < row + N ∧ col ≤ tc ∧ tc < col + N ∧ tr < g.rows ∧ tc < g.cols ∧
        (so = true → g.cell tr tc = ' ')) := by
  unfold brush_new_selections
  rw [List.mem_filterMap]
  constructor
  · rintro ⟨⟨dr, dc⟩, hd, hsome⟩
    have hdm : dr ∈ List.range N ∧ dc ∈ List.range N := List.mem_product.mp hd
    simp only [List.mem_range] at hdm
    simp only at hsome
    by_cases hb : row + dr < g.rows ∧ col + dc < g.cols
    · rw [if_pos hb] at hsome
      by_cases hs : so = true ∧ g.cell (row + dr) (col + dc) ≠ ' '
      · rw [if_pos hs] at hsome
        exact absurd hsome (by simp)
      · rw [if_neg hs] at hsome
        have htr : row + dr = tr ∧ col + dc = tc := by
          have := Option.some.inj hsome
          exact ⟨congrArg Prod.fst this, congrArg Prod.snd this⟩
        obtain ⟨h1, h2⟩ := htr
        subst h1
        subst h2
        refine ⟨by omega, by omega, by omega, by omega, hb.1, hb.2, ?_⟩
        intro hso
        by_contra hcell
        exact hs ⟨hso, hcell⟩
    · rw [if_neg hb] at hsome
      exact absurd hsome (by simp)
  · rintro ⟨h1, h2, h3, h4, h5, h6, h7⟩
    refine ⟨(tr - row, tc - col), ?_, ?_⟩
    · exact List.mem_product.mpr ⟨List.mem_range.mpr (by omega), List.mem_range.mpr (by omega)⟩
    · simp only
      have e1 : row + (tr - row) = tr := by omega
      have e2 : col + (tc - col) = tc := by omega
      rw [e1, e2, if_pos ⟨h5, h6⟩, if_neg]
      intro hs
      exact hs.2 (h7 hs.1)

/-- C2: brush stamping at an in-bounds anchor adds exactly the clipped N×N
block to the selection; with the space-only predicate active, exactly the
subset of that block currently holding the space character. -/
theorem claim_C2_brush_stamping :
    ∀ (g : Grid) (sel : List (Nat × Nat)) (so : Bool) (N row col : Nat),
      row < g.rows → col < g.cols →
      ∀ tr tc, ((tr, tc) ∈ apply_brush g sel so N row col ↔
        (tr, tc) ∈ sel ∨
          (row ≤ tr ∧ tr < row + N ∧ col ≤ tc ∧ tc < col + N ∧
           tr < g.rows ∧ tc < g.cols ∧ (so = true → g.cell tr tc = ' '))) := by
  intro g sel so N row col hr hc tr tc
  unfold apply_brush
  rw [if_pos ⟨hr, hc⟩, List.mem_append, List.mem_filter]
  constructor
  · rintro (h | ⟨h, _⟩)
    · exact Or.inl h
    · exact Or.inr ((mem_brush_new_selections g so N row col tr tc).mp h)
  · rintro (h | h)
    · exact Or.inl h
    · by_cases hsel : (tr, tc) ∈ sel
      · exact Or.inl hsel
      · exact Or.inr ⟨(mem_brush_new_selections g so N row col tr tc).mpr h, by
          simpa using hsel⟩

/-- Witness for C2: on `gTest` a 2×2 brush anchored at `(0, 0)` in space-only
mode selects `(1, 1)` (a space) but the characterization also rules the wall
cell `(0, 1)` out of the block predicate. -/
theorem claim_C2_brush_stamping_witness :
    (1, 1) ∈ apply_brush gTest [] true 2 0 0 :=
  (claim_C2_brush_stamping gTest [] true 2 0 0 (by decide) (by decide) 1 1).mpr
    (Or.inr (by decide))

theorem fillStep_rows (ch : Char) (st : Grid × ChangeSet) (rc : Nat × Nat) :
    (fillStep ch st rc).1.rows = st.1.rows ∧ (fillStep ch st rc).1.cols = st.1.cols := by
  rcases fillStep_stepOk ch st rc with h | ⟨c2, _, h⟩ <;> rw [h] <;> exact ⟨rfl, rfl⟩

theorem fillFold_preserves_ch (ch : Char) :
    ∀ (sel : List (Nat × Nat)) (st : Grid × ChangeSet) (r c : Nat),
      st.1.cell r c = ch → ((sel.foldl (fillStep ch) st).1).cell r c = ch := by
  intro sel
  induction sel with
  | nil => intro st r c h; exact h
  | cons a l ih =>
    intro st r c h
    rw [List.foldl_cons]
    apply ih
    unfold fillStep
    by_cases h1 : a.1 < st.1.rows ∧ a.2 < st.1.cols
    · rw [if_pos h1]
      by_cases h2 : st.1.cell a.1 a.2 = ch
      · rw [if_neg (by simpa using h2)]
        exact h
      · rw [if_pos (by simpa using h2)]
        by_cases hrc : r = a.1 ∧ c = a.2
        · show (gridSet st.1 a.1 a.2 ch).cell r c = ch
          rw [hrc.1, hrc.2]
          exact gridSet_cell_same st.1 a.1 a.2 ch
        · show (gridSet st.1 a.1 a.2 ch).cell r c = ch
          rw [gridSet_cell_other st.1 a.1 a.2 ch r c hrc]
          exact h
    · rw [if_neg h1]
      exact h

theorem fillFold_sets_ch (ch : Char) :
    ∀ (sel : List (Nat × Nat)) (st : Grid × ChangeSet) (r c : Nat),
      (r, c) ∈ sel → r < st.1.rows → c < st.1.cols →
      ((sel.foldl (fillStep ch) st).1).cell r c = ch := by
  intro sel
  induction sel with
  | nil => intro st r c hm; exact absurd hm (List.not_mem_nil _)
  | cons a l ih =>
    intro st r c hm hr hc
    rw [List.foldl_cons]
    rcases List.mem_cons.mp hm with he | hml
    · apply fillFold_preserves_ch
      rw [← he]
      show (fillStep ch st (r, c)).1.cell r c = ch
      unfold fillStep
      rw [if_pos ⟨hr, hc⟩]
      by_cases h2 : st.1.cell r c = ch
      · rw [if_neg (by simpa using h2)]
        exact h2
      · rw [if_pos (by simpa using h2)]
        exact gridSet_cell_same st.1 r c ch
    · exact ih (fillStep ch st a) r c hml
        ((fillStep_rows ch st a).1 ▸ hr) ((fillStep_rows ch st a).2 ▸ hc)

/-- C3: writing then reading returns the written value — both for a single
`gridSet` and for every in-bounds selected cell after a fill (menu fill and
keypress fill). -/
theorem claim_C3_set_then_get :
    (∀ (g : Grid) (r c : Nat) (x : Char), (gridSet g r c x).cell r c = x) ∧
    (∀ (g : Grid) (sel : List (Nat × Nat)) (x : Char) (r c : Nat),
      (r, c) ∈ sel → r < g.rows → c < g.cols →
        ((fill_changes g sel x).1).cell r c = x) ∧
    (∀ (g : Grid) (sel : List (Nat × Nat)) (x : Char) (r c : Nat),
      (r, c) ∈ sel → r < g.rows → c < g.cols →
        ((keypress_changes g sel x).1).cell r c = x) := by
  refine ⟨gridSet_cell_same, ?_, ?_⟩
  · intro g sel x r c hm hr hc
    exact fillFold_sets_ch x sel (g, []) r c hm hr hc
  · intro g sel x r c hm hr hc
    exact fillFold_sets_ch x sel (g, []) r c hm hr hc

/-- Witness for C3: filling `[(0, 1)]` of `gTest` with `x` leaves `x`
readable at `(0, 1)`. -/
theorem claim_C3_set_then_get_witness :
    ((fill_changes gTest [(0, 1)] 'x').1).cell 0 1 = 'x' :=
  claim_C3_set_then_get.2.1 gTest [(0, 1)] 'x' 0 1 (by decide) (by decide) (by decide)

theorem fillFold_entries_ne (ch : Char) :
    ∀ (sel : List (Nat × Nat)) (st : Grid × ChangeSet),
      (∀ e ∈ st.2, e.2.2 ≠ ch) →
      ∀ e ∈ (sel.foldl (fillStep ch) st).2, e.2.2 ≠ ch := by
  intro sel
  induction sel with
  | nil => intro st h; exact h
  | cons a l ih =>
    intro st h
    rw [List.foldl_cons]
    apply ih
    intro e he
    unfold fillStep at he
    by_cases h1 : a.1 < st.1.rows ∧ a.2 < st.1.cols
    · rw [if_pos h1] at he
      by_cases h2 : st.1.cell a.1 a.2 = ch
      · rw [if_neg (by simpa using h2)] at he
        exact h e he
      · rw [if_pos (by simpa using h2)] at he
        rcases List.mem_append.mp he with he1 | he1
        · exact h e he1
        · simp only [List.mem_singleton] at he1
          subst he1
          exact h2
    · rw [if_neg h1] at he
      exact h e he

theorem biomeFold_entries_ne (sel : List (Nat × Nat)) (minRow minCol : Nat)
    (bm : Nat → Nat → Char) :
    ∀ (items : List (Nat × Nat)) (st : Grid × ChangeSet),
      (∀ e ∈ st.2, e.2.2 ≠ bm (e.1 - minRow) (e.2.1 - minCol)) →
      ∀ e ∈ (items.foldl (biomeStep sel minRow minCol bm) st).2,
        e.2.2 ≠ bm (e.1 - minRow) (e.2.1 - minCol) := by
  intro items
  induction items with
  | nil => intro st h; exact h
  | cons a l ih =>
    intro st h
    rw [List.foldl_cons]
    apply ih
    intro e he
    unfold biomeStep at he
    by_cases h1 : a ∈ sel
    · rw [if_pos h1] at he
      by_cases h2 : st.1.cell a.1 a.2 = bm (a.1 - minRow) (a.2 - minCol)
      · rw [if_neg (by simpa using h2)] at he
        exact h e he
      · rw [if_pos (by simpa using h2)] at he
        rcases List.mem_append.mp he with he1 | he1
        · exact h e he1
        · simp only [List.mem_singleton] at he1
          subst he1
          exact h2
    · rw [if_neg h1] at he
      exact h e he

/-- C5: no change set recorded by a mutating operation contains an entry
whose previous character equals the character written there: for the fills
the fill character itself, for biome generation the biome-block character of
that coordinate. -/
theorem claim_C5_no_noop_entries :
    (∀ (g : Grid) (sel : List (Nat × Nat)) (ch : Char),
      ∀ e ∈ (fill_changes g sel ch).2, e.2.2 ≠ ch) ∧
    (∀ (g : Grid) (sel : List (Nat × Nat)) (ch : Char),
      ∀ e ∈ (keypress_changes g sel ch).2, e.2.2 ≠ ch) ∧
    (∀ (g : Grid) (sel : List (Nat × Nat)) (bm : Nat → Nat → Char),
      ∀ e ∈ (biome_changes g sel bm).2,
        e.2.2 ≠ bm (e.1 - listMin (sel.map Prod.fst)) (e.2.1 - listMin (sel.map Prod.snd))) := by
  refine ⟨?_, ?_, ?_⟩
  · intro g sel ch
    exact fillFold_entries_ne ch sel (g, []) (by simp)
  · intro g sel ch
    exact fillFold_entries_ne ch sel (g, []) (by simp)
  · intro g sel bm
    exact biomeFold_entries_ne sel _ _ bm _ (g, []) (by simp)

/-- Witness for C5: the change set of filling `[(0, 0), (0, 1)]` of `gTest`
with `x` contains `(0, 1, '#')`, whose previous character differs from the
fill character. -/
theorem claim_C5_no_noop_entries_witness :
    (0, 1, '#').2.2 ≠ 'x' :=
  claim_C5_no_noop_entries.1 gTest [(0, 0), (0, 1)] 'x' (0, 1, '#') (by decide)

/-- Folding pushes over the undo stack keeps exactly the most recent
`max_undo` change sets. -/
theorem pushUndo_foldl :
    ∀ (css stack : List ChangeSet), stack.length ≤ max_undo →
      css.foldl pushUndo stack =
        (stack ++ css).drop (stack.length + css.length - max_undo) := by
  intro css
  induction css with
  | nil =>
    intro stack hle
    have h0 : stack.length + ([] : List ChangeSet).length - max_undo = 0 := by
      rw [List.length_nil]
      omega
    rw [List.foldl_nil, List.append_nil, h0, List.drop_zero]
  | cons c rest ih =>
    intro stack hle
    rw [List.foldl_cons]
    by_cases h : stack.length < max_undo
    · have hpush : pushUndo stack c = stack ++ [c] := by
        unfold pushUndo
        rw [if_neg]
        rw [List.length_append, List.length_singleton]
        omega
      have hlen : (stack ++ [c]).length ≤ max_undo := by
        rw [List.length_append, List.length_singleton]
        omega
      rw [hpush, ih (stack ++ [c]) hlen]
      rw [List.append_assoc, List.singleton_append]
      congr 1
      rw [List.length_append, List.length_singleton, List.length_cons]
      omega
    · have h50 : stack.length = max_undo := le_antisymm hle (not_lt.mp h)
      have h1 : 1 ≤ stack.length := by
        rw [h50]
        norm_num [max_undo]
      have hpush : pushUndo stack c = stack.drop 1 ++ [c] := by
        unfold pushUndo
        rw [if_pos (by rw [List.length_append, List.length_singleton]; omega)]
        exact List.drop_append_of_le_length h1
      have hlen : (stack.drop 1 ++ [c]).length ≤ max_undo := by
        rw [List.length_append, List.length_drop, List.length_singleton]
        omega
      rw [hpush, ih (stack.drop 1 ++ [c]) hlen]
      rw [List.append_assoc, List.singleton_append]
      have hamt : (stack.drop 1 ++ [c]).length + rest.length - max_undo = rest.length := by
        rw [List.length_append, List.length_drop, List.length_singleton]
        omega
      have hamt2 : stack.length + (c :: rest).length - max_undo = 1 + rest.length := by
        rw [List.length_cons]
        omega
      rw [hamt, hamt2, ← List.drop_drop, List.drop_append_of_le_length h1]

/-- C4: the undo stack is bounded by `max_undo = 50`; a sequence of pushes
starting from the empty stack keeps exactly the most recent 50 change sets,
dropping from the front, and a push never grows a within-capacity stack past
capacity. -/
theorem claim_C4_undo_capacity :
    (∀ css : List ChangeSet,
      css.foldl pushUndo [] = css.drop (css.length - max_undo)) ∧
    (∀ css : List ChangeSet, (css.foldl pushUndo []).length ≤ max_undo) ∧
    (∀ (stack : List ChangeSet) (cs : ChangeSet),
      stack.length ≤ max_undo → (pushUndo stack cs).length ≤ max_undo) := by
  have hfold : ∀ css : List ChangeSet,
      css.foldl pushUndo [] = css.drop (css.length - max_undo) := by
    intro css
    have := pushUndo_foldl css [] (by simp)
    simpa using this
  refine ⟨hfold, ?_, ?_⟩
  · intro css
    rw [hfold css, List.length_drop]
    omega
  · intro stack cs hle
    unfold pushUndo
    by_cases h : (stack ++ [cs]).length > max_undo
    · rw [if_pos h]
      simp only [List.length_drop, List.length_append, List.length_singleton]
      omega
    · rw [if_neg h]
      omega

/-- Witness for C4: pushing one change set onto the empty stack stays within
capacity. -/
theorem claim_C4_undo_capacity_witness :
    (pushUndo [] [(0, 0, ' ')]).length ≤ max_undo :=
  claim_C4_undo_capacity.2.2 [] [(0, 0, ' ')] (by decide)

/-- C6: toggling the space-only predicate on while a selection of in-bounds
cells exists keeps exactly the members currently holding the space
character. -/
theorem claim_C6_toggle_purges :
    ∀ (g : Grid) (sel : List (Nat × Nat)),
      (∀ rc ∈ sel, rc.1 < g.rows ∧ rc.2 < g.cols) →
      ((toggle_space_selection g sel false).1 = true ∧
        ∀ rc, (rc ∈ (toggle_space_selection g sel false).2 ↔
          rc ∈ sel ∧ g.cell rc.1 rc.2 = ' ')) := by
  intro g sel hb
  unfold toggle_space_selection
  by_cases hne : sel = []
  · subst hne
    simp
  · rw [if_pos ⟨rfl, hne⟩]
    refine ⟨rfl, ?_⟩
    intro rc
    rw [List.mem_filter]
    constructor
    · rintro ⟨h1, h2⟩
      simp only [decide_eq_true_eq] at h2
      exact ⟨h1, h2.2.2⟩
    · rintro ⟨h1, h2⟩
      refine ⟨h1, ?_⟩
      simp only [decide_eq_true_eq]
      exact ⟨(hb rc h1).1, (hb rc h1).2, h2⟩

/-- Witness for C6: toggling on `gTest` with the mixed selection
`[(0,0), (0,1)]` keeps the space cell `(0, 0)`. -/
theorem claim_C6_toggle_purges_witness :
    (0, 0) ∈ (toggle_space_selection gTest [(0, 0), (0, 1)] false).2 :=
  ((claim_C6_toggle_purges gTest [(0, 0), (0, 1)] (by decide)).2 (0, 0)).mpr
    (by decide)

/-- C7: pool eviction returns the grid untouched, keeps every pool entry
whose coordinate lies inside the buffer-expanded visible range, and removes
nothing that was not in the pool. -/
theorem claim_C7_eviction_safe :
    ∀ (g : Grid) (pool : List ((Nat × Nat) × (Nat × Nat))) (x1 y1 w h cw ch : Int),
      (safe_cleanup_canvas_objects g pool x1 y1 w h cw ch).1 = g ∧
      (∀ e ∈ pool, insideCleanupBounds g.rows g.cols x1 y1 w h cw ch e.1 →
        e ∈ (safe_cleanup_canvas_objects g pool x1 y1 w h cw ch).2) ∧
      (∀ e ∈ (safe_cleanup_canvas_objects g pool x1 y1 w h cw ch).2, e ∈ pool) := by
  intro g pool x1 y1 w h cw ch
  unfold safe_cleanup_canvas_objects
  by_cases hlen : pool.length < 1000
  · rw [if_pos hlen]
    exact ⟨rfl, fun e he _ => he, fun e he => he⟩
  · rw [if_neg hlen]
    refine ⟨rfl, ?_, ?_⟩
    · intro e he hin
      exact List.mem_filter.mpr ⟨he, decide_eq_true hin⟩
    · intro e he
      exact (List.mem_filter.mp he).1

/-- Witness for C7: on a one-entry pool (below the cleanup threshold) the
entry at the origin, which lies inside the expanded bounds of a 2×3 grid
viewed from scroll origin, survives eviction. -/
theorem claim_C7_eviction_safe_witness :
    ((0, 0), (7, 8)) ∈
      (safe_cleanup_canvas_objects gTest [((0, 0), (7, 8))] 0 0 100 100 20 20).2 :=
  (claim_C7_eviction_safe gTest [((0, 0), (7, 8))] 0 0 100 100 20 20).2.1
    ((0, 0), (7, 8)) (by decide) (by decide)

/-- Membership in an index rectangle built from clamped bounds implies grid
bounds. -/
theorem mem_rect_in_bounds (rows cols : Nat) (sr er sc ec : Int)
    (hsr : 0 ≤ sr) (hsc : 0 ≤ sc) (her : er ≤ (rows : Int)) (hec : ec ≤ (cols : Int))
    (r c : Int)
    (hm : (r, c) ∈ ((List.range (er - sr).toNat).map (fun i => sr + Int.ofNat i)).product
      ((List.range (ec - sc).toNat).map (fun j => sc + Int.ofNat j))) :
    0 ≤ r ∧ r < (rows : Int) ∧ 0 ≤ c ∧ c < (cols : Int) := by
  obtain ⟨hr, hc⟩ := List.mem_product.mp hm
  obtain ⟨i, hi, hir⟩ := List.mem_map.mp hr
  obtain ⟨j, hj, hjc⟩ := List.mem_map.mp hc
  rw [List.mem_range] at hi hj
  have hi2 : (i : Int) < er - sr := Int.lt_toNat.mp hi
  have hj2 : (j : Int) < ec - sc := Int.lt_toNat.mp hj
  simp only [Int.ofNat_eq_natCast] at hir hjc
  omega

/-- C8: every coordinate of the visible range computed by the renderer —
both the incremental and the force-complete variant — lies inside the grid
bounds. -/
theorem claim_C8_visible_range_in_bounds :
    ∀ (rows cols : Nat) (x1 y1 w h cw ch : Int) (r c : Int),
      ((r, c) ∈ visibleCells rows cols x1 y1 w h cw ch →
        0 ≤ r ∧ r < (rows : Int) ∧ 0 ≤ c ∧ c < (cols : Int)) ∧
      ((r, c) ∈ visibleCellsForce rows cols x1 y1 w h cw ch →
        0 ≤ r ∧ r < (rows : Int) ∧ 0 ≤ c ∧ c < (cols : Int)) := by
  intro rows cols x1 y1 w h cw ch r c
  constructor
  · intro hm
    simp only [visibleCells] at hm
    exact mem_rect_in_bounds rows cols _ _ _ _ (le_max_left 0 _) (le_max_left 0 _)
      (min_le_left _ _) (min_le_left _ _) r c hm
  · intro hm
    simp only [visibleCellsForce] at hm
    exact mem_rect_in_bounds rows cols _ _ _ _ (le_max_left 0 _) (le_max_left 0 _)
      (min_le_left _ _) (min_le_left _ _) r c hm

/-- Witness for C8: cell `(0, 0)` of the visible range of a 2×3 grid viewed
from the scroll origin is in bounds. -/
theorem claim_C8_visible_range_in_bounds_witness :
    (0, 0) ∈ visibleCells 2 3 0 0 100 100 20 20 ∧
      (0 : Int) ≤ 0 ∧ (0 : Int) < (2 : Nat) ∧ (0 : Int) ≤ 0 ∧ (0 : Int) < (3 : Nat) :=
  ⟨by decide, (claim_C8_visible_range_in_bounds 2 3 0 0 100 100 20 20 0 0).1 (by decide)⟩

theorem foldl_max_init : ∀ (l : List Nat) (a : Nat), a ≤ l.foldl max a := by
  intro l
  induction l with
  | nil => intro a; exact le_refl a
  | cons x xs ih =>
    intro a
    rw [List.foldl_cons]
    exact le_trans (le_max_left a x) (ih (max a x))

theorem foldl_max_le : ∀ (l : List Nat) (a x : Nat), x ∈ l → x ≤ l.foldl max a := by
  intro l
  induction l with
  | nil => intro a x hx; exact absurd hx (List.not_mem_nil x)
  | cons y ys ih =>
    intro a x hx
    rw [List.foldl_cons]
    rcases List.mem_cons.mp hx with he | hm
    · subst he
      exact le_trans (le_max_right a x) (foldl_max_init ys (max a x))
    · exact ih (max a y) x hm

theorem foldl_max_mem : ∀ (l : List Nat) (a : Nat),
    l.foldl max a = a ∨ l.foldl max a ∈ l := by
  intro l
  induction l with
  | nil => intro a; exact Or.inl rfl
  | cons x xs ih =>
    intro a
    rw [List.foldl_cons]
    rcases ih (max a x) with h | h
    · rcases max_choice a x with h2 | h2
      · exact Or.inl (by rw [h, h2])
      · exact Or.inr (by rw [h, h2]; exact List.mem_cons_self x xs)
    · exact Or.inr (List.mem_cons_of_mem x h)

/-- Reading `n` positions of a line through `getD` with space default yields
the line padded with spaces to width `n`. -/
theorem rangeMap_getD_pad : ∀ (l : List Char) (n : Nat), l.length ≤ n →
    (List.range n).map (fun c => l.getD c ' ') = l ++ List.replicate (n - l.length) ' ' := by
  intro l
  induction l with
  | nil =>
    intro n _
    simp only [List.getD_nil, List.nil_append, List.length_nil, Nat.sub_zero]
    rw [List.map_const', List.length_range]
  | cons x xs ih =>
    intro n hn
    cases n with
    | zero => exact absurd hn (by simp)
    | succ m =>
      rw [List.range_succ_eq_map, List.map_cons, List.map_map]
      have h2 : ((fun c => (x :: xs).getD c ' ') ∘ Nat.succ) = (fun c => xs.getD c ' ') := by
        funext c
        simp [List.getD_cons_succ]
      rw [h2, ih m (by simpa using hn)]
      show x :: (xs ++ List.replicate (m - xs.length) ' ') =
        (x :: xs) ++ List.replicate (m + 1 - (xs.length + 1)) ' '
      rw [Nat.succ_sub_succ, List.cons_append]

/-- C9: loading yields one grid row per file line and a column count equal to
the longest stripped line, short rows being space-padded; saving the loaded
grid emits exactly the stripped lines padded to the grid width, one per
line. -/
theorem claim_C9_serialization :
    ∀ lines : List (List Char), lines ≠ [] →
      (load_text_file lines).rows = lines.length ∧
      (∀ l ∈ lines, (rstripNewline l).length ≤ (load_text_file lines).cols) ∧
      ((load_text_file lines).cols ∈ lines.map (fun l => (rstripNewline l).length)) ∧
      save_to_file (load_text_file lines) =
        lines.map (fun l => padRight (rstripNewline l) (load_text_file lines).cols) := by
  intro lines hne
  have hub : ∀ l ∈ lines, (rstripNewline l).length ≤ (load_text_file lines).cols := by
    intro l hl
    exact foldl_max_le _ 0 _ (List.mem_map.mpr ⟨l, hl, rfl⟩)
  refine ⟨rfl, hub, ?_, ?_⟩
  · rcases foldl_max_mem (lines.map (fun l => (rstripNewline l).length)) 0 with h | h
    · have hmapne : lines.map (fun l => (rstripNewline l).length) ≠ [] := by
        simpa using hne
      obtain ⟨y, hy⟩ := List.exists_mem_of_ne_nil _ hmapne
      have hy0 : y = 0 := Nat.le_zero.mp (h ▸ foldl_max_le _ 0 y hy)
      have hcols : (load_text_file lines).cols = 0 := h
      rw [hcols, ← hy0]
      exact hy
    · exact h
  · apply List.ext_getElem
    · simp [save_to_file, load_text_file]
    · intro i h1 h2
      have hi : i < lines.length := by
        simpa [save_to_file, load_text_file] using h1
      simp only [save_to_file, List.getElem_map, List.getElem_range]
      show (List.range (load_text_file lines).cols).map
          (fun c => (load_text_file lines).cell i c) =
        padRight (rstripNewline lines[i]) (load_text_file lines).cols
      have hcell : (fun c => (load_text_file lines).cell i c) =
          (fun c => (rstripNewline lines[i]).getD c ' ') := by
        funext c
        show (rstripNewline (lines.getD i [])).getD c ' ' = _
        rw [List.getD_eq_getElem lines [] hi]
      rw [hcell, rangeMap_getD_pad (rstripNewline lines[i]) (load_text_file lines).cols
        (hub lines[i] (List.getElem_mem hi))]
      rfl

/-- Witness for C9: loading the two-line file `ab` / `c` yields a 2×2 grid
whose saved form is `ab` / `c` padded with one space. -/
theorem claim_C9_serialization_witness :
    (load_text_file [['a', 'b'], ['c']]).rows = 2 ∧
      save_to_file (load_text_file [['a', 'b'], ['c']]) = [['a', 'b'], ['c', ' ']] := by
  have h := claim_C9_serialization [['a', 'b'], ['c']] (by decide)
  refine ⟨h.1, ?_⟩
  rw [h.2.2.2]
  rfl

theorem fillFold_entries_bound (ch : Char) (R C : Nat) :
    ∀ (sel : List (Nat × Nat)) (st : Grid × ChangeSet),
      st.1.rows = R → st.1.cols = C →
      (∀ e ∈ st.2, e.1 < R ∧ e.2.1 < C) →
      ∀ e ∈ (sel.foldl (fillStep ch) st).2, e.1 < R ∧ e.2.1 < C := by
  intro sel
  induction sel with
  | nil => intro st _ _ h; exact h
  | cons a l ih =>
    intro st hR hC h
    rw [List.foldl_cons]
    refine ih (fillStep ch st a) ?_ ?_ ?_
    · rw [(fillStep_rows ch st a).1, hR]
    · rw [(fillStep_rows ch st a).2, hC]
    · intro e he
      unfold fillStep at he
      by_cases h1 : a.1 < st.1.rows ∧ a.2 < st.1.cols
      · rw [if_pos h1] at he
        by_cases h2 : st.1.cell a.1 a.2 = ch
        · rw [if_neg (by simpa using h2)] at he
          exact h e he
        · rw [if_pos (by simpa using h2)] at he
          rcases List.mem_append.mp he with he1 | he1
          · exact h e he1
          · simp only [List.mem_singleton] at he1
            subst he1
            exact ⟨hR ▸ h1.1, hC ▸ h1.2⟩
      · rw [if_neg h1] at he
        exact h e he

theorem biomeFold_entries_mem (sel : List (Nat × Nat)) (minRow minCol : Nat)
    (bm : Nat → Nat → Char) :
    ∀ (items : List (Nat × Nat)) (st : Grid × ChangeSet),
      (∀ e ∈ st.2, (e.1, e.2.1) ∈ sel) →
      ∀ e ∈ (items.foldl (biomeStep sel minRow minCol bm) st).2, (e.1, e.2.1) ∈ sel := by
  intro items
  induction items with
  | nil => intro st h; exact h
  | cons a l ih =>
    intro st h
    rw [List.foldl_cons]
    apply ih
    intro e he
    unfold biomeStep at he
    by_cases h1 : a ∈ sel
    · rw [if_pos h1] at he
      by_cases h2 : st.1.cell a.1 a.2 = bm (a.1 - minRow) (a.2 - minCol)
      · rw [if_neg (by simpa using h2)] at he
        exact h e he
      · rw [if_pos (by simpa using h2)] at he
        rcases List.mem_append.mp he with he1 | he1
        · exact h e he1
        · simp only [List.mem_singleton] at he1
          subst he1
          simpa using h1
    · rw [if_neg h1] at he
      exact h e he

/-- C10: every change-set entry recorded by the fills carries an in-bounds
coordinate; biome entries are in bounds whenever the selection is (which the
brush — the only way cells enter the selection — guarantees, since it only
adds clipped cells). -/
theorem claim_C10_entries_in_bounds :
    (∀ (g : Grid) (sel : List (Nat × Nat)) (ch : Char),
      ∀ e ∈ (fill_changes g sel ch).2, e.1 < g.rows ∧ e.2.1 < g.cols) ∧
    (∀ (g : Grid) (sel : List (Nat × Nat)) (ch : Char),
      ∀ e ∈ (keypress_changes g sel ch).2, e.1 < g.rows ∧ e.2.1 < g.cols) ∧
    (∀ (g : Grid) (sel : List (Nat × Nat)) (bm : Nat → Nat → Char),
      (∀ rc ∈ sel, rc.1 < g.rows ∧ rc.2 < g.cols) →
      ∀ e ∈ (biome_changes g sel bm).2, e.1 < g.rows ∧ e.2.1 < g.cols) ∧
    (∀ (g : Grid) (sel : List (Nat × Nat)) (so : Bool) (N row col : Nat),
      (∀ rc ∈ sel, rc.1 < g.rows ∧ rc.2 < g.cols) →
      ∀ rc ∈ apply_brush g sel so N row col, rc.1 < g.rows ∧ rc.2 < g.cols) := by
  refine ⟨?_, ?_, ?_, ?_⟩
  · intro g sel ch
    exact fillFold_entries_bound ch g.rows g.cols sel (g, []) rfl rfl (by simp)
  · intro g sel ch
    exact fillFold_entries_bound ch g.rows g.cols sel (g, []) rfl rfl (by simp)
  · intro g sel bm hb e he
    have hmem := biomeFold_entries_mem sel _ _ bm _ (g, []) (by simp) e he
    exact hb (e.1, e.2.1) hmem
  · intro g sel so N row col hb rc hrc
    unfold apply_brush at hrc
    by_cases ha : row < g.rows ∧ col < g.cols
    · rw [if_pos ha] at hrc
      rcases List.mem_append.mp hrc with h1 | h1
      · exact hb rc h1
      · have h2 := (List.mem_filter.mp h1).1
        have h3 := (mem_brush_new_selections g so N row col rc.1 rc.2).mp (by
          simpa using h2)
        exact ⟨h3.2.2.2.2.1, h3.2.2.2.2.2.1⟩
    · rw [if_neg ha] at hrc
      exact hb rc hrc

/-- Witness for C10: the entry recorded at `(0, 1)` when filling `gTest` is
inside the 2×3 bounds. -/
theorem claim_C10_entries_in_bounds_witness :
    ((0 : Nat), (1 : Nat), '#').1 < gTest.rows ∧
      ((0 : Nat), (1 : Nat), '#').2.1 < gTest.cols :=
  claim_C10_entries_in_bounds.1 gTest [(0, 0), (0, 1)] 'x' (0, 1, '#') (by decide)

end MapEditor
